import Mathlib

/-!
Verification of the title-matching and resolution pipeline of
`download_papers.py` (arxiv-pdf-fetcher).

The Python source is shallowly embedded: strings are `List Char` / `String`,
Python floats produced by the similarity arithmetic are modelled exactly as
rationals (`ℚ`), and the external arXiv search backend is an explicit oracle
parameter `QuerySpec → List String` returning candidate titles.

Character-level primitives (`str.lower`, the regex classes `\w` and `\s`)
are modelled on the character ranges the program manipulates: ASCII and the
Greek block.  Characters outside these ranges are left unchanged by the
case map and treated as non-word characters.
-/

namespace ArxivFetch

/-- Model of Python `str.lower` on the ASCII and Greek capital ranges;
all other characters are fixed. -/
def pyLower (c : Char) : Char :=
  if 65 ≤ c.toNat ∧ c.toNat ≤ 90 then Char.ofNat (c.toNat + 32)
  else if 0x391 ≤ c.toNat ∧ c.toNat ≤ 0x3A9 ∧ c.toNat ≠ 0x3A2 then Char.ofNat (c.toNat + 32)
  else c

/-- Model of the regex class `\w` (word character): ASCII alphanumerics,
underscore, and letters of the Greek block. -/
def isWordChar (c : Char) : Bool :=
  c.isAlphanum || c = '_' || (decide (0x391 ≤ c.toNat) && decide (c.toNat ≤ 0x3C9))

/-- Model of the regex class `\s` (ASCII whitespace). -/
def isSpacePy (c : Char) : Bool :=
  c = ' ' || c = '\t' || c = '\n' || c = '\r' || c = Char.ofNat 11 || c = Char.ofNat 12

/-- `re.sub(r'[^\w\s]', ' ', ·)`: every character that is neither a word
character nor whitespace becomes a single space. -/
def spaceify (l : List Char) : List Char :=
  l.map fun c => if isWordChar c || isSpacePy c then c else ' '

/-- Python `str.replace` for a single-character needle. -/
def replaceAll (t : Char) (r : List Char) (l : List Char) : List Char :=
  l.flatMap fun c => if c = t then r else [c]

/-- The five Greek-letter substitutions of `normalize_title`, applied in
the source's order. -/
def greekSub (l : List Char) : List Char :=
  replaceAll 'ε' ['e','p','s','i','l','o','n']
    (replaceAll 'δ' ['d','e','l','t','a']
      (replaceAll 'γ' ['g','a','m','m','a']
        (replaceAll 'α' ['a','l','p','h','a']
          (replaceAll 'β' ['b','e','t','a'] l))))

/-- `re.sub(r'\s+', ' ', ·)`: collapse each maximal whitespace run to one
space. -/
def collapseWs : List Char → List Char
  | [] => []
  | [c] => if isSpacePy c then [' '] else [c]
  | c1 :: c2 :: rest =>
    if isSpacePy c1 && isSpacePy c2 then collapseWs (c2 :: rest)
    else (if isSpacePy c1 then ' ' else c1) :: collapseWs (c2 :: rest)

/-- Python `str.strip()`: drop leading and trailing whitespace. -/
def pyStrip (l : List Char) : List Char :=
  ((l.dropWhile isSpacePy).reverse.dropWhile isSpacePy).reverse

/-- Auxiliary for no-argument `str.split`: chunks of a character list cut at
every whitespace character (empty chunks kept). -/
def wsChunks : List Char → List (List Char)
  | [] => [[]]
  | c :: rest =>
    match wsChunks rest, isSpacePy c with
    | r, true => [] :: r
    | [], false => [[c]]
    | g :: gs, false => (c :: g) :: gs

/-- Python `str.split()` with no argument: maximal nonempty runs of
non-whitespace characters. -/
def pySplitWs (l : List Char) : List (List Char) :=
  (wsChunks l).filter fun t => t ≠ []

/-- The stop-word list of `normalize_title`. -/
def stop_words : List (List Char) :=
  [['t','h','e'], ['a'], ['a','n'], ['a','n','d'], ['o','r'], ['b','u','t'],
   ['i','n'], ['o','n'], ['w','i','t','h'], ['f','o','r'], ['o','f'],
   ['t','o'], ['b','y']]

/-- The token list produced by `normalize_title`: lowercase, strip
punctuation to spaces, substitute Greek letters, collapse whitespace,
split, and drop stop words. -/
def normTokens (l : List Char) : List (List Char) :=
  (pySplitWs (pyStrip (collapseWs (greekSub (spaceify (l.map pyLower)))))).filter
    fun w => ¬ stop_words.contains w

/-- `normalize_title` on character lists: the filtered tokens rejoined with
single spaces. -/
def normalizeL (l : List Char) : List Char :=
  List.intercalate [' '] (normTokens l)

/-- `normalize_title(title)` from `download_papers.py`. -/
def normalize_title (title : String) : String :=
  ⟨normalizeL title.data⟩

/-! ### difflib.SequenceMatcher (isjunk = None)

`title_similarity` calls `SequenceMatcher(None, s1, s2).ratio()`.  The
embedding follows CPython's `difflib.py`: the `b2j` index with the
autojunk heuristic, the `find_longest_match` dynamic program with its
greedy first-longest-block tie-breaking and endpoint extension, and the
`get_matching_blocks` recursion whose block sizes are summed by
`ratio`. -/

/-- Boolean list membership check used as the model of Python list
lookups (`List Char` keys). -/
def leadsWith : List Char → List Char → Bool
  | [], _ => true
  | _ :: _, [] => false
  | p :: ps, c :: cs => p = c && leadsWith ps cs

/-- Python substring test `p in s` on character lists. -/
def substrB (p : List Char) : List Char → Bool
  | [] => leadsWith p []
  | c :: rest => leadsWith p (c :: rest) || substrB p rest

/-- Python substring test `p in s` on strings. -/
def substrS (p s : String) : Bool := substrB p.data s.data

/-- `b2j` from `SequenceMatcher.__chain_b` with `isjunk = None`: the
ascending positions of `c` in `b`, emptied for "popular" characters when
`len(b) >= 200` (the autojunk heuristic). -/
def b2j (b : List Char) (c : Char) : List Nat :=
  let idxs := (b.enum.filter fun p => p.2 = c).map Prod.fst
  if 200 ≤ b.length ∧ b.length / 100 + 1 < idxs.length then [] else idxs

/-- Out-of-range sentinels distinct from each other, so that an
out-of-window lookup can never produce a spurious character match. -/
def getA (a : List Char) (i : Nat) : Char := a.getD i (Char.ofNat 0)

def getB (b : List Char) (j : Nat) : Char := b.getD j (Char.ofNat 1)

/-- The dynamic program of `find_longest_match`: for each `i` in
`[alo, ahi)` and each `j` in `b2j[a[i]]` within `[blo, bhi)`, the length
`k` of the longest match ending at `(i, j)`; the best block is updated
only on strictly greater `k` (first longest block wins). -/
def flmDP (a b : List Char) (alo ahi blo bhi : Nat) : Nat × Nat × Nat :=
  let step := fun (st : (Nat → Nat) × (Nat × Nat × Nat)) (i : Nat) =>
    let j2len := st.1
    let js := (b2j b (getA a i)).filter fun j => decide (blo ≤ j) && decide (j < bhi)
    js.foldl (fun (st2 : (Nat → Nat) × (Nat × Nat × Nat)) j =>
      let k := (if j = 0 then 0 else j2len (j - 1)) + 1
      let newj2len := fun x => if x = j then k else st2.1 x
      let best := if k > st2.2.2.2 then (i + 1 - k, j + 1 - k, k) else st2.2
      (newj2len, best)) ((fun _ => 0), st.2)
  ((List.range' alo (ahi - alo)).foldl step ((fun _ => 0), (alo, blo, 0))).2

/-- The left endpoint-extension loop of `find_longest_match` (the junk
set is empty since `isjunk` is `None`). -/
def extLeft (a b : List Char) (alo blo : Nat) : Nat → Nat × Nat × Nat → Nat × Nat × Nat
  | 0, st => st
  | fuel + 1, (besti, bestj, bestsize) =>
    if alo < besti ∧ blo < bestj ∧ getA a (besti - 1) = getB b (bestj - 1) then
      extLeft a b alo blo fuel (besti - 1, bestj - 1, bestsize + 1)
    else (besti, bestj, bestsize)

/-- The right endpoint-extension loop of `find_longest_match`. -/
def extRight (a b : List Char) (ahi bhi : Nat) : Nat → Nat × Nat × Nat → Nat × Nat × Nat
  | 0, st => st
  | fuel + 1, (besti, bestj, bestsize) =>
    if besti + bestsize < ahi ∧ bestj + bestsize < bhi ∧
        getA a (besti + bestsize) = getB b (bestj + bestsize) then
      extRight a b ahi bhi fuel (besti, bestj, bestsize + 1)
    else (besti, bestj, bestsize)

/-- `find_longest_match(alo, ahi, blo, bhi)` with an empty junk set. -/
def findLongestMatch (a b : List Char) (alo ahi blo bhi : Nat) : Nat × Nat × Nat :=
  extRight a b ahi bhi (a.length + 1)
    (extLeft a b alo blo (a.length + 1) (flmDP a b alo ahi blo bhi))

/-- Total size of the matching blocks of `get_matching_blocks`, as the
standard recursion on sub-windows (the queue in the source is an
iterative rendering of the same recursion, and its final
adjacent-block merge preserves the size sum).  The fuel argument is a
bound on the recursion depth. -/
def matchTotal (a b : List Char) : Nat → Nat × Nat × Nat × Nat → Nat
  | 0, _ => 0
  | fuel + 1, (alo, ahi, blo, bhi) =>
    let r := findLongestMatch a b alo ahi blo bhi
    let i := r.1
    let j := r.2.1
    let k := r.2.2
    if k = 0 then 0
    else k + (if alo < i ∧ blo < j then matchTotal a b fuel (alo, i, blo, j) else 0)
           + (if i + k < ahi ∧ j + k < bhi then matchTotal a b fuel (i + k, ahi, j + k, bhi) else 0)

/-- The summed size of all matching blocks between `a` and `b`. -/
def pyMatches (a b : List Char) : Nat :=
  matchTotal a b (a.length + b.length + 1) (0, a.length, 0, b.length)

/-- `SequenceMatcher(None, a, b).ratio()` as an exact rational:
`2 * M / T` where `T = len(a) + len(b)`, and `1` when both are empty. -/
def ratioQ (a b : List Char) : ℚ :=
  let t := a.length + b.length
  if t = 0 then 1 else 2 * (pyMatches a b : ℚ) / (t : ℚ)

/-! ### title_similarity and verify_paper_match -/

/-- Python `set(s.split())`: the set of whitespace-delimited tokens. -/
def wordSet (s : String) : Finset (List Char) :=
  (pySplitWs s.data).toFinset

/-- `title_similarity(title1, title2)`: the weighted blend of the
sequence ratio, the mutual-containment flag, and the word overlap of the
normalized titles. -/
def title_similarity (title1 title2 : String) : ℚ :=
  let norm_title1 := normalize_title title1
  let norm_title2 := normalize_title title2
  let basic_similarity := ratioQ norm_title1.data norm_title2.data
  let contained := substrS norm_title1 norm_title2 || substrS norm_title2 norm_title1
  let words1 := wordSet norm_title1
  let words2 := wordSet norm_title2
  let word_overlap : ℚ :=
    if words1 ≠ ∅ ∧ words2 ≠ ∅ then
      ((words1 ∩ words2).card : ℚ) / (min words1.card words2.card : ℚ)
    else 0
  1/2 * basic_similarity + 3/10 * (if contained then 1 else 0) + 1/5 * word_overlap

/-- The verdict reasons returned by `verify_paper_match` (the source
returns the corresponding message strings). -/
inductive Reason where
  | HighSimilarity
  | HighImportantWordOverlap
  | TitleContainment
  | LowSimilarity
  | BlacklistedPattern
  | CandidateTooLong
deriving DecidableEq

/-- The blacklist of known-false-positive phrases in
`verify_paper_match`. -/
def blacklist_patterns : List String :=
  ["existence of weak solutions", "continuity equation", "darcy law",
   "electronic health records", "multimodal electronic"]

/-- Python `str.lower` on strings. -/
def pyLowerS (s : String) : String := ⟨s.data.map pyLower⟩

/-- `verify_paper_match(requested_title, candidate_title)`: the decision
procedure of the Match Verifier, in the source's rule order. -/
def verify_paper_match (requested_title candidate_title : String) : Bool × ℚ × Reason :=
  let similarity := title_similarity requested_title candidate_title
  let norm_requested := normalize_title requested_title
  let norm_candidate := normalize_title candidate_title
  let req_words := wordSet norm_requested
  let cand_words := wordSet norm_candidate
  let important_req_words := req_words.filter fun w => 4 < w.length
  let important_cand_words := cand_words.filter fun w => 4 < w.length
  let important_word_overlap : ℚ :=
    if important_req_words ≠ ∅ then
      ((important_req_words ∩ important_cand_words).card : ℚ) / (important_req_words.card : ℚ)
    else 0
  if blacklist_patterns.any (fun pattern =>
      substrS pattern (pyLowerS norm_candidate) && ¬ substrS pattern (pyLowerS norm_requested)) then
    (false, 0, Reason.BlacklistedPattern)
  else
    let len_ratio : ℚ :=
      if norm_requested ≠ "" then
        (norm_candidate.data.length : ℚ) / (norm_requested.data.length : ℚ)
      else 0
    if len_ratio > 2 then (false, similarity, Reason.CandidateTooLong)
    else if similarity ≥ 7/10 then (true, similarity, Reason.HighSimilarity)
    else if important_word_overlap ≥ 4/5 then (true, similarity, Reason.HighImportantWordOverlap)
    else if substrS norm_requested norm_candidate || substrS norm_candidate norm_requested then
      (true, similarity, Reason.TitleContainment)
    else (false, similarity, Reason.LowSimilarity)

/-! ### extract_arxiv_id -/

/-- Match `\d+\.\d+` at the head of a character list (maximal digit run,
a dot, maximal digit run). -/
def matchIdAt (l : List Char) : Option (List Char) :=
  let d1 := l.takeWhile Char.isDigit
  if d1 = [] then none
  else
    match l.drop d1.length with
    | '.' :: rest =>
      let d2 := rest.takeWhile Char.isDigit
      if d2 = [] then none else some (d1 ++ '.' :: d2)
    | _ => none

/-- Leftmost match of a pattern matcher over a character list, as
`re.search` does. -/
def scanFor (f : List Char → Option (List Char)) : List Char → Option (List Char)
  | [] => none
  | c :: rest =>
    match f (c :: rest) with
    | some r => some r
    | none => scanFor f rest

/-- `arxiv\.org/(?:abs|pdf)/(\d+\.\d+)` at one position. -/
def matchAbsPdfAt (l : List Char) : Option (List Char) :=
  if leadsWith "arxiv.org/abs/".data l then matchIdAt (l.drop 14)
  else if leadsWith "arxiv.org/pdf/".data l then matchIdAt (l.drop 14)
  else none

/-- `/arxiv:(\d+\.\d+)` at one position. -/
def matchColonAt (l : List Char) : Option (List Char) :=
  if leadsWith "/arxiv:".data l then matchIdAt (l.drop 7) else none

/-- `extract_arxiv_id(url)` from `download_papers.py`. -/
def extract_arxiv_id (url : String) : Option String :=
  if substrS "arxiv.org" url then
    match scanFor matchAbsPdfAt url.data with
    | some id => some ⟨id⟩
    | none =>
      match scanFor matchColonAt url.data with
      | some id => some ⟨id⟩
      | none => none
  else none

/-! ### Query strategies -/

/-- One search strategy: the query string handed to `arxiv.Search` and
its `max_results` cap (all strategies request relevance ordering). -/
structure QuerySpec where
  query : String
  cap : Nat
deriving DecidableEq

/-- Stable insert for descending sort by a key (ties keep the incoming
order, matching Python's stable `sorted`). -/
def insDesc {α β : Type} [LinearOrder β] (key : α → β) (x : α) : List α → List α
  | [] => [x]
  | h :: t => if key h > key x then h :: insDesc key x t else x :: h :: t

/-- Stable descending sort by a key: the model of Python
`sorted(·, key=key, reverse=True)`. -/
def sortDescBy {α β : Type} [LinearOrder β] (key : α → β) : List α → List α
  | [] => []
  | x :: xs => insDesc key x (sortDescBy key xs)

/-- `" ".join(ws)` on token lists. -/
def joinSpace (ws : List (List Char)) : String :=
  ⟨List.intercalate [' '] ws⟩

/-- Wrap a string in double quotes, as the f-strings of the strategy
queries do. -/
def quoteS (s : String) : String := "\"" ++ s ++ "\""

/-- The separator list used to cut a NeurIPS title down to its "main
concept". -/
def separators : List String := [" for ", " with ", " using ", " via ", " in ", " on "]

/-- `title.split(sep)[0]`: the text before the first occurrence of
`sep`. -/
def cutAt (sep : List Char) : List Char → List Char
  | [] => []
  | c :: rest => if leadsWith sep (c :: rest) then [] else c :: cutAt sep rest

/-- The `main_concept` computation for NeurIPS titles: the title
truncated at the first separator (in list order) that occurs in it. -/
def mainConcept (title : String) : String :=
  match separators.find? (fun sep => substrS sep title) with
  | some sep => ⟨cutAt sep.data title.data⟩
  | none => title

/-- The ordered strategy list of `search_arxiv_by_title`: four base
strategies, plus three more when `is_neurips` is set. -/
def searchStrategies (title : String) (is_neurips : Bool) : List QuerySpec :=
  let normalized_title := normalize_title title
  let words := pySplitWs normalized_title.data
  [⟨"ti:" ++ quoteS title, 5⟩,
   ⟨"ti:" ++ quoteS (joinSpace (words.take 8)), 10⟩,
   ⟨"ti:" ++ quoteS (joinSpace (words.take 5)), 10⟩,
   ⟨quoteS (joinSpace ((sortDescBy (fun w => w.length) words).take 3)), 10⟩] ++
  (if is_neurips then
    [⟨quoteS (normalize_title (mainConcept title)), 20⟩,
     ⟨joinSpace (words.filter fun w => 4 < w.length), 20⟩,
     ⟨normalized_title, 20⟩]
   else [])

/-! ### The resolution orchestrator -/

/-- The accepted `(candidate, similarity, reason)` triples among one
strategy's results. -/
def acceptedOf (title : String) (results : List String) : List (String × ℚ × Reason) :=
  results.filterMap fun r =>
    let v := verify_paper_match title r
    if v.1 then some (r, v.2.1, v.2.2) else none

/-- The strategy loop of `search_arxiv_by_title`: issue each strategy's
query in order, verify every result, and stop as soon as a strategy with
nonempty results leaves the accumulated verified list nonempty.  Returns
the issued strategies, the verified triples, and all results seen. -/
def searchLoop (oracle : QuerySpec → List String) (title : String) :
    List QuerySpec → List (String × ℚ × Reason) → List String →
    List QuerySpec × List (String × ℚ × Reason) × List String
  | [], verified, all => ([], verified, all)
  | q :: rest, verified, all =>
    let results := oracle q
    let verified' := verified ++ acceptedOf title results
    let all' := all ++ results
    if results ≠ [] ∧ verified' ≠ [] then ([q], verified', all')
    else
      let r := searchLoop oracle title rest verified' all'
      (q :: r.1, r.2)

/-- The running best of the unverified fallback: Python's
`best_match`/`best_similarity` loop with a strict `>` update. -/
def bestLoop (title : String) : List String → Option String × ℚ → Option String × ℚ
  | [], acc => acc
  | r :: rest, acc =>
    let s := title_similarity title r
    bestLoop title rest (if s > acc.2 then (some r, s) else acc)

/-- The unverified-fallback selection: the best seen candidate is
returned when its similarity reaches the threshold and
`verify_paper_match` independently accepts it. -/
def fallbackSelect (title : String) (threshold : ℚ) (all_results : List String) : List String :=
  if all_results ≠ [] then
    match bestLoop title all_results (none, 0) with
    | (some best_match, best_similarity) =>
      if best_similarity ≥ threshold then
        if (verify_paper_match title best_match).1 then [best_match] else []
      else []
    | (none, _) => []
  else []

/-- The observable outcome of one `search_arxiv_by_title` run: the
queries issued to the backend and the returned result titles (at most
one). -/
structure SearchOutcome where
  issued : List QuerySpec
  returned : List String
deriving DecidableEq

/-- `search_arxiv_by_title(title, similarity_threshold, is_neurips)`:
lower the threshold for NeurIPS papers, run the strategy loop, return
the best verified match, else fall back to the best unverified
candidate. -/
def search_arxiv_by_title (oracle : QuerySpec → List String) (title : String)
    (similarity_threshold : ℚ) (is_neurips : Bool) : SearchOutcome :=
  let threshold := if is_neurips then max (2/5) (similarity_threshold - 1/5)
                   else similarity_threshold
  let strats := searchStrategies title is_neurips
  let r := searchLoop oracle title strats [] []
  let issued := r.1
  let verified_results := r.2.1
  let all_results := r.2.2
  if verified_results ≠ [] then
    match sortDescBy (fun v => v.2.1) verified_results with
    | [] => ⟨issued, []⟩
    | v :: _ => ⟨issued, [v.1]⟩
  else ⟨issued, fallbackSelect title threshold all_results⟩

/-- NeurIPS detection in `download_papers_from_json`: a substring check
on the lowercased source URL. -/
def is_neurips_url (url : String) : Bool :=
  ["neurips", "nips.cc", "proceedings.neurips", "proceedings.nips"].any
    fun d => substrS d (pyLowerS url)

/-- The per-paper resolution step of `download_papers_from_json`: detect
the venue from the URL and always search arXiv by title. -/
def resolvePaper (oracle : QuerySpec → List String) (paper_name paper_url : String)
    (similarity_threshold : ℚ) : SearchOutcome :=
  search_arxiv_by_title oracle paper_name similarity_threshold (is_neurips_url paper_url)

/-! ### Specification-side definitions

Independent renderings of notions the spec quantifies over, used to
state claims against the embedded code. -/

/-- The first element of a list attaining the maximum of `f` (the
"single highest-scoring candidate", ties resolved to the earliest). -/
def argmaxFirst (f : String → ℚ) : List String → Option String
  | [] => none
  | x :: xs =>
    match argmaxFirst f xs with
    | none => some x
    | some y => if f y > f x then some y else some x

/-- Remove-and-return the earliest element of maximal key. -/
def pickFirstMax {α β : Type} [LinearOrder β] (key : α → β) : List α → Option (α × List α)
  | [] => none
  | a :: t =>
    match pickFirstMax key t with
    | none => some (a, [])
    | some (m, rest) => if key m > key a then some (m, a :: rest) else some (a, t)

/-- The `n` largest elements by key, in descending key order with ties
broken by original order, built by repeated earliest-maximum
selection. -/
def takeTopBy {α β : Type} [LinearOrder β] (key : α → β) : Nat → List α → List α
  | 0, _ => []
  | n + 1, l =>
    match pickFirstMax key l with
    | none => []
    | some (m, rest) => m :: takeTopBy key n rest

/-- Modelled from the spec for the refinement comparison of the venue
threshold adjustment: the same search pipeline, but taking the strategy
list and the fallback threshold directly, with no venue-dependent
adjustment. -/
def searchWithThreshold (oracle : QuerySpec → List String) (title : String)
    (threshold : ℚ) (strats : List QuerySpec) : SearchOutcome :=
  let r := searchLoop oracle title strats [] []
  let issued := r.1
  let verified_results := r.2.1
  let all_results := r.2.2
  if verified_results ≠ [] then
    match sortDescBy (fun v => v.2.1) verified_results with
    | [] => ⟨issued, []⟩
    | v :: _ => ⟨issued, [v.1]⟩
  else ⟨issued, fallbackSelect title threshold all_results⟩

/-! ## Theorems -/

lemma data_ne_nil (a : String) (h : a ≠ "") : a.data ≠ [] := by
  intro he
  apply h
  cases a
  exact congrArg String.mk he

/-- `find_longest_match` over an empty `a`-window finds nothing, so an
empty first string yields zero matched characters. -/
lemma pyMatches_nil_left (l : List Char) : pyMatches [] l = 0 := by
  simp [pyMatches, matchTotal, findLongestMatch, flmDP, extLeft, extRight]

/-- `ratio` of the empty string against a nonempty string is `0`. -/
lemma ratioQ_nil_left (l : List Char) (h : l ≠ []) : ratioQ [] l = 0 := by
  have hl : l.length ≠ 0 := fun he => h (List.length_eq_zero.mp he)
  simp [ratioQ, pyMatches_nil_left, hl]

attribute [local irreducible] pyMatches normalizeL

/-- C10: when the NeurIPS flag is set, `search_arxiv_by_title` runs the
whole pipeline — in particular the unverified-fallback acceptance — with
the threshold lowered to `max 0.4 (t - 0.2)` before strategy search
begins; for non-NeurIPS papers the caller's threshold is used
unchanged. -/
theorem C10_neurips_threshold (oracle : QuerySpec → List String) (title : String) (t : ℚ) :
    search_arxiv_by_title oracle title t true =
      searchWithThreshold oracle title (max (2/5) (t - 1/5)) (searchStrategies title true) ∧
    search_arxiv_by_title oracle title t false =
      searchWithThreshold oracle title t (searchStrategies title false) := by
  constructor <;> rfl

/-- C1 (amended): the resolution step never consults the source URL for
an arXiv identifier; the URL influences the outcome only through the
venue-detection flag.  In particular two papers with the same title and
the same venue flag resolve identically, whether or not their URLs
encode an arXiv identifier. -/
theorem C1_url_only_via_venue (oracle : QuerySpec → List String)
    (name u1 u2 : String) (t : ℚ)
    (h : is_neurips_url u1 = is_neurips_url u2) :
    resolvePaper oracle name u1 t = resolvePaper oracle name u2 t := by
  unfold resolvePaper
  rw [h]

/-- C5: a blacklisted phrase contained in the normalized candidate but
not in the normalized requested title forces rejection with
`BlacklistedPattern` and reported similarity `0.0`, before every other
rule. -/
theorem C5_blacklist_precedence (req cand : String)
    (h : ∃ p ∈ blacklist_patterns,
        substrS p (pyLowerS (normalize_title cand)) = true ∧
        substrS p (pyLowerS (normalize_title req)) = false) :
    verify_paper_match req cand = (false, 0, Reason.BlacklistedPattern) := by
  obtain ⟨p, hp, h1, h2⟩ := h
  have hany : (blacklist_patterns.any fun pattern =>
      substrS pattern (pyLowerS (normalize_title cand)) &&
        ¬ substrS pattern (pyLowerS (normalize_title req))) = true := by
    rw [List.any_eq_true]
    exact ⟨p, hp, by simp [h1, h2]⟩
  unfold verify_paper_match
  simp only [hany, if_true]

/-- C7: with a nonempty normalized requested title and no blacklist hit,
a normalized candidate longer than twice the normalized requested title
is rejected with `CandidateTooLong` before any acceptance rule. -/
theorem C7_length_ratio_rejection (req cand : String)
    (hne : normalize_title req ≠ "")
    (hbl : (blacklist_patterns.any fun pattern =>
        substrS pattern (pyLowerS (normalize_title cand)) &&
          ¬ substrS pattern (pyLowerS (normalize_title req))) = false)
    (hlen : 2 * (normalize_title req).data.length < (normalize_title cand).data.length) :
    verify_paper_match req cand = (false, title_similarity req cand, Reason.CandidateTooLong) := by
  have hpos : (0 : ℚ) < ((normalize_title req).data.length : ℚ) := by
    exact_mod_cast List.length_pos.mpr (data_ne_nil _ hne)
  have hc : ((2 : ℚ) * ((normalize_title req).data.length : ℚ)) <
      ((normalize_title cand).data.length : ℚ) := by exact_mod_cast hlen
  have hgt : ((normalize_title cand).data.length : ℚ) /
      ((normalize_title req).data.length : ℚ) > 2 := by
    rw [gt_iff_lt, lt_div_iff₀ hpos]
    linarith
  simp only [verify_paper_match, hbl, Bool.false_eq_true, if_false, if_pos hne, hgt, if_true]

lemma pickFirstMax_eq_none {α β : Type} [LinearOrder β] (key : α → β) :
    ∀ l : List α, pickFirstMax key l = none ↔ l = [] := by
  intro l
  cases l with
  | nil => simp [pickFirstMax]
  | cons a t =>
    simp only [pickFirstMax]
    cases hp : pickFirstMax key t with
    | none => simp
    | some p =>
      obtain ⟨m, r⟩ := p
      by_cases h : key m > key a <;> simp [h]

/-- Removing-and-prepending the earliest maximum computes the head of
the stable descending sort. -/
lemma sortDescBy_pickFirstMax {α β : Type} [LinearOrder β] (key : α → β) :
    ∀ (l : List α) (m : α) (rest : List α), pickFirstMax key l = some (m, rest) →
      sortDescBy key l = m :: sortDescBy key rest := by
  intro l
  induction l with
  | nil => intro m rest h; simp [pickFirstMax] at h
  | cons a t ih =>
    intro m rest h
    cases hp : pickFirstMax key t with
    | none =>
      have ht := (pickFirstMax_eq_none key t).mp hp
      subst ht
      simp only [pickFirstMax, Option.some.injEq, Prod.mk.injEq] at h
      obtain ⟨h1, h2⟩ := h
      subst h1; subst h2
      rfl
    | some p =>
      obtain ⟨m', rest'⟩ := p
      simp only [pickFirstMax, hp] at h
      by_cases hk : key m' > key a
      · rw [if_pos hk] at h
        simp only [Option.some.injEq, Prod.mk.injEq] at h
        obtain ⟨h1, h2⟩ := h
        subst h1; subst h2
        show insDesc key a (sortDescBy key t) = m' :: sortDescBy key (a :: rest')
        rw [ih m' rest' hp]
        show insDesc key a (m' :: sortDescBy key rest') = m' :: insDesc key a (sortDescBy key rest')
        simp only [insDesc, if_pos hk]
      · rw [if_neg hk] at h
        simp only [Option.some.injEq, Prod.mk.injEq] at h
        obtain ⟨h1, h2⟩ := h
        subst h1; subst h2
        show insDesc key a (sortDescBy key t) = a :: sortDescBy key t
        cases hs : sortDescBy key t with
        | nil => rfl
        | cons h' t' =>
          have hhead := ih m' rest' hp
          rw [hs] at hhead
          injection hhead with e1 e2
          rw [insDesc, e1, if_neg hk]

/-- The `n`-element head of the stable descending sort is the iterated
earliest-maximum selection. -/
lemma sortDescBy_take {α β : Type} [LinearOrder β] (key : α → β) :
    ∀ (n : Nat) (l : List α), (sortDescBy key l).take n = takeTopBy key n l := by
  intro n
  induction n with
  | zero => intro l; rfl
  | succ n ih =>
    intro l
    cases hp : pickFirstMax key l with
    | none =>
      have hl := (pickFirstMax_eq_none key l).mp hp
      subst hl
      rfl
    | some p =>
      obtain ⟨m, rest⟩ := p
      rw [sortDescBy_pickFirstMax key l m rest hp]
      rw [takeTopBy, hp]
      simp only [List.take_succ_cons]
      rw [ih]

/-- C6 (amended): for every title, the fourth base strategy is a
quoted-phrase search on the 3 longest normalized tokens by character
length, in descending length with ties broken by original token order,
capped at 10 results. -/
theorem C6_fourth_strategy (title : String) (is_neurips : Bool) :
    (searchStrategies title is_neurips).get? 3 =
      some ⟨quoteS (joinSpace (takeTopBy (fun w : List Char => w.length) 3
              (pySplitWs (normalize_title title).data))), 10⟩ := by
  rw [← sortDescBy_take]
  cases is_neurips <;> rfl

/-- C4 (amended): the containment and word-overlap components are
symmetric, so the composite score is symmetric whenever the
sequence-ratio component is symmetric on the two normalized titles. -/
theorem C4_symmetry_given_ratio (a b : String)
    (h : ratioQ (normalize_title a).data (normalize_title b).data =
         ratioQ (normalize_title b).data (normalize_title a).data) :
    title_similarity a b = title_similarity b a := by
  simp only [title_similarity]
  rw [h, Bool.or_comm, Finset.inter_comm, min_comm]
  simp only [and_comm]

lemma acceptedOf_ne_nil (title : String) (results : List String) (c : String)
    (hc : c ∈ results) (hacc : (verify_paper_match title c).1 = true) :
    acceptedOf title results ≠ [] := by
  have hm : (c, (verify_paper_match title c).2.1, (verify_paper_match title c).2.2) ∈
      acceptedOf title results :=
    List.mem_filterMap.mpr ⟨c, hc, by simp only [hacc, if_true]⟩
  exact List.ne_nil_of_mem hm

lemma searchLoop_stops (oracle : QuerySpec → List String) (title : String) :
    ∀ (strats : List QuerySpec) (k : Nat) (hk : k < strats.length)
      (v : List (String × ℚ × Reason)) (al : List String),
      (∃ c ∈ oracle (strats.get ⟨k, hk⟩), (verify_paper_match title c).1 = true) →
      ∃ n, n ≤ k + 1 ∧ (searchLoop oracle title strats v al).1 = strats.take n := by
  intro strats
  induction strats with
  | nil => intro k hk; exact absurd hk (by simp)
  | cons q rest ih =>
    intro k hk v al hacc
    by_cases hcond : oracle q ≠ [] ∧ v ++ acceptedOf title (oracle q) ≠ []
    · refine ⟨1, Nat.succ_le_succ (Nat.zero_le k), ?_⟩
      simp only [searchLoop, if_pos hcond, List.take_succ_cons, List.take_zero]
    · have hloop : (searchLoop oracle title (q :: rest) v al).1 =
          q :: (searchLoop oracle title rest (v ++ acceptedOf title (oracle q))
            (al ++ oracle q)).1 := by
        simp only [searchLoop, if_neg hcond]
      cases k with
      | zero =>
        exfalso
        obtain ⟨c, hc, hv⟩ := hacc
        apply hcond
        refine ⟨List.ne_nil_of_mem hc, fun he => ?_⟩
        exact acceptedOf_ne_nil title (oracle q) c hc hv (List.append_eq_nil.mp he).2
      | succ k' =>
        have hk' : k' < rest.length := Nat.lt_of_succ_lt_succ hk
        obtain ⟨n, hn, heq⟩ := ih k' hk' (v ++ acceptedOf title (oracle q)) (al ++ oracle q) hacc
        refine ⟨n + 1, Nat.succ_le_succ hn, ?_⟩
        rw [hloop, heq, List.take_succ_cons]

lemma search_issued (oracle : QuerySpec → List String) (title : String)
    (thr : ℚ) (ven : Bool) :
    (search_arxiv_by_title oracle title thr ven).issued =
      (searchLoop oracle title (searchStrategies title ven) [] []).1 := by
  simp only [search_arxiv_by_title]
  split
  · split <;> rfl
  · rfl

/-- C2: strategies are issued in their fixed order (the issued queries
are always an initial segment of the strategy list), and once strategy
`k`'s results contain a Verifier-accepted candidate, no strategy after
`k` is ever issued. -/
theorem C2_strategy_short_circuit (oracle : QuerySpec → List String) (title : String)
    (threshold : ℚ) (is_neurips : Bool) (k : Nat)
    (hk : k < (searchStrategies title is_neurips).length)
    (hacc : ∃ c ∈ oracle ((searchStrategies title is_neurips).get ⟨k, hk⟩),
      (verify_paper_match title c).1 = true) :
    ∃ n, n ≤ k + 1 ∧
      (search_arxiv_by_title oracle title threshold is_neurips).issued =
        (searchStrategies title is_neurips).take n := by
  rw [search_issued]
  exact searchLoop_stops oracle title _ k hk [] [] hacc

lemma ratioQ_nonneg (a b : List Char) : 0 ≤ ratioQ a b := by
  simp only [ratioQ]
  split
  · norm_num
  · positivity

lemma title_similarity_nonneg (t c : String) : 0 ≤ title_similarity t c := by
  simp only [title_similarity]
  apply add_nonneg
  apply add_nonneg
  · exact mul_nonneg (by norm_num) (ratioQ_nonneg _ _)
  · apply mul_nonneg (by norm_num)
    split <;> norm_num
  · apply mul_nonneg (by norm_num)
    split
    · positivity
    · norm_num

lemma accepted_sim_pos (req cand : String)
    (h : (verify_paper_match req cand).1 = true) : 0 < title_similarity req cand := by
  have hA := ratioQ_nonneg (normalize_title req).data (normalize_title cand).data
  have hB : (0:ℚ) ≤ (if (substrS (normalize_title req) (normalize_title cand) ||
      substrS (normalize_title cand) (normalize_title req)) = true
      then (1:ℚ) else 0) := by split <;> norm_num
  have hC : (0:ℚ) ≤ (if wordSet (normalize_title req) ≠ ∅ ∧
      wordSet (normalize_title cand) ≠ ∅ then
      ((wordSet (normalize_title req) ∩ wordSet (normalize_title cand)).card : ℚ) /
      (min ((wordSet (normalize_title req)).card : ℚ)
        ((wordSet (normalize_title cand)).card : ℚ)) else 0) := by
    split
    · positivity
    · norm_num
  simp only [verify_paper_match] at h
  by_cases h1 : (blacklist_patterns.any fun pattern =>
      substrS pattern (pyLowerS (normalize_title cand)) &&
        ¬ substrS pattern (pyLowerS (normalize_title req))) = true
  · rw [if_pos h1] at h
    exact Bool.noConfusion h
  rw [if_neg h1] at h
  by_cases h2 : ((if normalize_title req ≠ "" then
      ((normalize_title cand).data.length : ℚ) / ((normalize_title req).data.length : ℚ)
      else 0) > 2)
  · rw [if_pos h2] at h
    exact Bool.noConfusion h
  rw [if_neg h2] at h
  by_cases h3 : title_similarity req cand ≥ 7/10
  · linarith
  rw [if_neg h3] at h
  by_cases h4 : ((if (wordSet (normalize_title req)).filter (fun w => 4 < w.length) ≠ ∅ then
      (((wordSet (normalize_title req)).filter (fun w => 4 < w.length) ∩
        (wordSet (normalize_title cand)).filter (fun w => 4 < w.length)).card : ℚ) /
      (((wordSet (normalize_title req)).filter (fun w => 4 < w.length)).card : ℚ)
      else 0) ≥ 4/5)
  · by_cases hne : (wordSet (normalize_title req)).filter (fun w => 4 < w.length) ≠ ∅
    case neg =>
      rw [if_neg hne] at h4
      norm_num at h4
    case pos =>
      rw [if_pos hne] at h4
      have hcard : 0 < ((wordSet (normalize_title req)).filter (fun w => 4 < w.length) ∩
          (wordSet (normalize_title cand)).filter (fun w => 4 < w.length)).card := by
        by_contra hc
        rw [Nat.eq_zero_of_not_pos hc] at h4
        norm_num at h4
      obtain ⟨w, hw⟩ := Finset.card_pos.mp hcard
      have hw1 : w ∈ wordSet (normalize_title req) :=
        (Finset.mem_filter.mp (Finset.mem_inter.mp hw).1).1
      have hw2 : w ∈ wordSet (normalize_title cand) :=
        (Finset.mem_filter.mp (Finset.mem_inter.mp hw).2).1
      have hcond : wordSet (normalize_title req) ≠ ∅ ∧
          wordSet (normalize_title cand) ≠ ∅ :=
        ⟨Finset.nonempty_iff_ne_empty.mp ⟨w, hw1⟩,
         Finset.nonempty_iff_ne_empty.mp ⟨w, hw2⟩⟩
      have hov : (0:ℚ) < ((wordSet (normalize_title req) ∩
          wordSet (normalize_title cand)).card : ℚ) /
          (min ((wordSet (normalize_title req)).card : ℚ)
            ((wordSet (normalize_title cand)).card : ℚ)) := by
        apply div_pos
        · exact_mod_cast Finset.card_pos.mpr ⟨w, Finset.mem_inter.mpr ⟨hw1, hw2⟩⟩
        · have hp1 : 0 < (wordSet (normalize_title req)).card :=
            Finset.card_pos.mpr ⟨w, hw1⟩
          have hp2 : 0 < (wordSet (normalize_title cand)).card :=
            Finset.card_pos.mpr ⟨w, hw2⟩
          have hq1 : (0:ℚ) < ((wordSet (normalize_title req)).card : ℚ) := by
            exact_mod_cast hp1
          have hq2 : (0:ℚ) < ((wordSet (normalize_title cand)).card : ℚ) := by
            exact_mod_cast hp2
          exact lt_min hq1 hq2
      simp only [title_similarity]
      rw [if_pos hcond]
      linarith
  rw [if_neg h4] at h
  by_cases h5 : (substrS (normalize_title req) (normalize_title cand) ||
      substrS (normalize_title cand) (normalize_title req)) = true
  · simp only [title_similarity]
    rw [if_pos h5]
    linarith
  · rw [if_neg h5] at h
    exact Bool.noConfusion h

lemma argmaxFirst_eq_none (f : String → ℚ) :
    ∀ l : List String, argmaxFirst f l = none ↔ l = [] := by
  intro l
  cases l with
  | nil => simp [argmaxFirst]
  | cons x xs =>
    simp only [argmaxFirst]
    cases h : argmaxFirst f xs with
    | none => simp
    | some y => by_cases hy : f y > f x <;> simp [hy]

lemma bestLoop_eq_some (title : String) :
    ∀ (l : List String) (b : String) (bm : Option String) (bs : ℚ),
      argmaxFirst (title_similarity title) l = some b →
      bestLoop title l (bm, bs) =
        (if title_similarity title b > bs then (some b, title_similarity title b)
         else (bm, bs)) := by
  intro l
  induction l with
  | nil => intro b bm bs h; simp [argmaxFirst] at h
  | cons x xs ih =>
    intro b bm bs h
    show bestLoop title xs
        (if title_similarity title x > bs then (some x, title_similarity title x)
         else (bm, bs)) = _
    cases hxs : argmaxFirst (title_similarity title) xs with
    | none =>
      have hnil := (argmaxFirst_eq_none (title_similarity title) xs).mp hxs
      subst hnil
      simp only [argmaxFirst, Option.some.injEq] at h
      subst h
      rfl
    | some y =>
      simp only [argmaxFirst, hxs] at h
      by_cases hx : title_similarity title x > bs
      · rw [if_pos hx, ih y (some x) (title_similarity title x) hxs]
        by_cases hy : title_similarity title y > title_similarity title x
        · rw [if_pos hy] at h
          injection h with h
          subst h
          rw [if_pos hy, if_pos (lt_trans hx hy)]
        · rw [if_neg hy] at h
          injection h with h
          subst h
          rw [if_neg hy, if_pos hx]
      · rw [if_neg hx, ih y bm bs hxs]
        by_cases hy : title_similarity title y > title_similarity title x
        · rw [if_pos hy] at h
          injection h with h
          subst h
          rfl
        · rw [if_neg hy] at h
          injection h with h
          subst h
          rw [if_neg (fun hc => hx (lt_of_lt_of_le hc (not_lt.mp hy))), if_neg hx]

lemma fallbackSelect_spec (title : String) (thr : ℚ) (all : List String) (hne : all ≠ []) :
    ∃ b, argmaxFirst (title_similarity title) all = some b ∧
      fallbackSelect title thr all =
        (if title_similarity title b ≥ thr ∧ (verify_paper_match title b).1 = true
         then [b] else []) := by
  cases ham : argmaxFirst (title_similarity title) all with
  | none => exact absurd ((argmaxFirst_eq_none _ all).mp ham) hne
  | some b =>
    refine ⟨b, rfl, ?_⟩
    unfold fallbackSelect
    rw [if_pos hne, bestLoop_eq_some title all b none 0 ham]
    by_cases hb : title_similarity title b > 0
    · rw [if_pos hb]
      show (if title_similarity title b ≥ thr then
          (if (verify_paper_match title b).1 = true then [b] else []) else []) = _
      by_cases h1 : title_similarity title b ≥ thr
      · rw [if_pos h1]
        by_cases h2 : (verify_paper_match title b).1 = true
        · rw [if_pos h2, if_pos ⟨h1, h2⟩]
        · rw [if_neg h2, if_neg (fun hc => h2 hc.2)]
      · rw [if_neg h1, if_neg (fun hc => h1 hc.1)]
    · rw [if_neg hb]
      show ([] : List String) = _
      rw [if_neg (fun hc => hb (accepted_sim_pos _ _ hc.2))]

lemma search_returned_fallback (oracle : QuerySpec → List String) (title : String)
    (thr : ℚ) (ven : Bool)
    (hv : (searchLoop oracle title (searchStrategies title ven) [] []).2.1 = []) :
    (search_arxiv_by_title oracle title thr ven).returned =
      fallbackSelect title (if ven then max (2/5) (thr - 1/5) else thr)
        (searchLoop oracle title (searchStrategies title ven) [] []).2.2 := by
  simp only [search_arxiv_by_title, hv]
  rw [if_neg (by simp)]

/-- C3: in a run where the strategy loop accepted no candidate but saw
at least one, the orchestrator takes the earliest highest-scoring
candidate among all seen, and returns exactly it if and only if its
score reaches the (venue-adjusted) threshold and `verify_paper_match`
independently accepts it; otherwise it returns no result. -/
theorem C3_unverified_fallback (oracle : QuerySpec → List String) (title : String)
    (threshold : ℚ) (is_neurips : Bool)
    (hnone : (searchLoop oracle title (searchStrategies title is_neurips) [] []).2.1 = [])
    (hseen : (searchLoop oracle title (searchStrategies title is_neurips) [] []).2.2 ≠ []) :
    ∃ b, argmaxFirst (title_similarity title)
        (searchLoop oracle title (searchStrategies title is_neurips) [] []).2.2 = some b ∧
      (search_arxiv_by_title oracle title threshold is_neurips).returned =
        (if title_similarity title b ≥
              (if is_neurips then max (2/5) (threshold - 1/5) else threshold) ∧
            (verify_paper_match title b).1 = true
         then [b] else []) := by
  obtain ⟨b, hb, hf⟩ := fallbackSelect_spec title
    (if is_neurips then max (2/5) (threshold - 1/5) else threshold)
    (searchLoop oracle title (searchStrategies title is_neurips) [] []).2.2 hseen
  exact ⟨b, hb, by
    rw [search_returned_fallback oracle title threshold is_neurips hnone, hf]⟩

lemma substrB_nil (l : List Char) : substrB [] l = true := by
  cases l <;> rfl

lemma sim_empty_req (req cand : String)
    (hreq : normalize_title req = "") :
    title_similarity req cand = (if normalize_title cand = "" then 4/5 else 3/10) := by
  by_cases hc : normalize_title cand = ""
  · rw [if_pos hc]
    simp only [title_similarity, hreq, hc]
    have hws : wordSet ("" : String) = ∅ := rfl
    norm_num [ratioQ, substrS, substrB_nil, hws]
  · rw [if_neg hc]
    simp only [title_similarity, hreq]
    rw [ratioQ_nil_left _ (data_ne_nil _ hc)]
    rw [substrS, substrB_nil]
    have hws : wordSet ("" : String) = ∅ := rfl
    rw [hws]
    simp

/-- C9: when the requested title normalizes to the empty string, the
length-ratio rule cannot fire (its ratio is defined as 0) and the
Verifier accepts every candidate with no blacklisted phrase — via
`TitleContainment` with reported similarity `0.3` whenever the
candidate's normalization is nonempty (the empty string is a substring
of every string). -/
theorem C9_empty_request (req cand : String)
    (hreq : normalize_title req = "")
    (hbl : (blacklist_patterns.any fun pattern =>
        substrS pattern (pyLowerS (normalize_title cand)) &&
          ¬ substrS pattern (pyLowerS (normalize_title req))) = false) :
    (verify_paper_match req cand).1 = true ∧
    (normalize_title cand ≠ "" →
      verify_paper_match req cand = (true, 3/10, Reason.TitleContainment)) := by
  have hsim := sim_empty_req req cand hreq
  have hcont : (substrS (normalize_title req) (normalize_title cand) ||
      substrS (normalize_title cand) (normalize_title req)) = true := by
    rw [hreq, substrS, substrB_nil]
    simp
  have hlen : ¬ ((if normalize_title req ≠ "" then
      ((normalize_title cand).data.length : ℚ) / ((normalize_title req).data.length : ℚ)
      else 0) > 2) := by
    rw [if_neg (by simp [hreq])]
    norm_num
  have hwse : wordSet ("" : String) = ∅ := rfl
  have hiwo : ¬ ((if (wordSet (normalize_title req)).filter (fun w => 4 < w.length) ≠ ∅ then
      (((wordSet (normalize_title req)).filter (fun w => 4 < w.length) ∩
        (wordSet (normalize_title cand)).filter (fun w => 4 < w.length)).card : ℚ) /
      (((wordSet (normalize_title req)).filter (fun w => 4 < w.length)).card : ℚ)
      else 0) ≥ 4/5) := by
    rw [if_neg (by rw [hreq, hwse]; simp)]
    norm_num
  by_cases hc : normalize_title cand = ""
  · rw [if_pos hc] at hsim
    have hv : verify_paper_match req cand = (true, title_similarity req cand,
        Reason.HighSimilarity) := by
      simp only [verify_paper_match, hbl, Bool.false_eq_true, if_false]
      rw [if_neg hlen, if_pos (by rw [hsim]; norm_num)]
    exact ⟨by rw [hv], fun h => absurd hc h⟩
  · rw [if_neg hc] at hsim
    have hv : verify_paper_match req cand = (true, 3/10, Reason.TitleContainment) := by
      simp only [verify_paper_match, hbl, Bool.false_eq_true, if_false]
      rw [if_neg hlen, if_neg (by rw [hsim]; norm_num), if_neg hiwo, if_pos hcont, hsim]
    exact ⟨by rw [hv], fun _ => hv⟩
/-! ### Normalization idempotence (C8) -/

lemma char_toNat_ofNat (n : Nat) (h : n < 0xD800) : (Char.ofNat n).toNat = n := by
  have hv : Nat.isValidChar n := Or.inl h
  simp [Char.ofNat, Char.toNat, Char.ofNatAux, hv, UInt32.toNat, BitVec.toNat_ofNatLt]

lemma pyLower_fix (c : Char) (h1 : ¬(65 ≤ c.toNat ∧ c.toNat ≤ 90))
    (h2 : ¬(0x391 ≤ c.toNat ∧ c.toNat ≤ 0x3A9 ∧ c.toNat ≠ 0x3A2)) : pyLower c = c := by
  unfold pyLower
  rw [if_neg h1, if_neg h2]

lemma pyLower_idem (c : Char) : pyLower (pyLower c) = pyLower c := by
  by_cases h1 : 65 ≤ c.toNat ∧ c.toNat ≤ 90
  · have he : pyLower c = Char.ofNat (c.toNat + 32) := by
      unfold pyLower; rw [if_pos h1]
    have ht : (Char.ofNat (c.toNat + 32)).toNat = c.toNat + 32 :=
      char_toNat_ofNat _ (by omega)
    rw [he]
    apply pyLower_fix <;> rw [ht] <;> omega
  · by_cases h2 : 0x391 ≤ c.toNat ∧ c.toNat ≤ 0x3A9 ∧ c.toNat ≠ 0x3A2
    · have he : pyLower c = Char.ofNat (c.toNat + 32) := by
        unfold pyLower; rw [if_neg h1, if_pos h2]
      have ht : (Char.ofNat (c.toNat + 32)).toNat = c.toNat + 32 :=
        char_toNat_ofNat _ (by omega)
      rw [he]
      apply pyLower_fix <;> rw [ht] <;> omega
    · rw [pyLower_fix c h1 h2, pyLower_fix c h1 h2]

lemma spaceify_mem {m : List Char} {c : Char} (h : c ∈ spaceify m) :
    (isWordChar c || isSpacePy c) = true ∧ (c = ' ' ∨ c ∈ m) := by
  simp only [spaceify, List.mem_map] at h
  obtain ⟨d, hd, he⟩ := h
  by_cases hw : (isWordChar d || isSpacePy d) = true
  · rw [if_pos hw] at he
    subst he
    exact ⟨hw, Or.inr hd⟩
  · rw [if_neg hw] at he
    subst he
    exact ⟨by decide, Or.inl rfl⟩

lemma replaceAll_mem {t : Char} {r m : List Char} {c : Char} (h : c ∈ replaceAll t r m) :
    c ∈ r ∨ (c ∈ m ∧ c ≠ t) := by
  simp only [replaceAll, List.mem_flatMap] at h
  obtain ⟨d, hd, hc⟩ := h
  by_cases he : d = t
  · rw [if_pos he] at hc
    exact Or.inl hc
  · rw [if_neg he] at hc
    simp only [List.mem_singleton] at hc
    subst hc
    exact Or.inr ⟨hd, he⟩

lemma greekSub_good {m : List Char} {c : Char} (h : c ∈ greekSub m)
    (hm : ∀ d ∈ m, pyLower d = d ∧ (isWordChar d || isSpacePy d) = true) :
    pyLower c = c ∧ (isWordChar c || isSpacePy c) = true ∧
      c ∉ (['β','α','γ','δ','ε'] : List Char) := by
  have r5 : ∀ x ∈ (['e','p','s','i','l','o','n'] : List Char), pyLower x = x ∧
      (isWordChar x || isSpacePy x) = true ∧
      x ∉ (['β','α','γ','δ','ε'] : List Char) := by decide
  have r4 : ∀ x ∈ (['d','e','l','t','a'] : List Char), pyLower x = x ∧
      (isWordChar x || isSpacePy x) = true ∧
      x ∉ (['β','α','γ','δ','ε'] : List Char) := by decide
  have r3 : ∀ x ∈ (['g','a','m','m','a'] : List Char), pyLower x = x ∧
      (isWordChar x || isSpacePy x) = true ∧
      x ∉ (['β','α','γ','δ','ε'] : List Char) := by decide
  have r2 : ∀ x ∈ (['a','l','p','h','a'] : List Char), pyLower x = x ∧
      (isWordChar x || isSpacePy x) = true ∧
      x ∉ (['β','α','γ','δ','ε'] : List Char) := by decide
  have r1 : ∀ x ∈ (['b','e','t','a'] : List Char), pyLower x = x ∧
      (isWordChar x || isSpacePy x) = true ∧
      x ∉ (['β','α','γ','δ','ε'] : List Char) := by decide
  unfold greekSub at h
  rcases replaceAll_mem h with hre | ⟨h, hε⟩
  · exact r5 c hre
  rcases replaceAll_mem h with hre | ⟨h, hδ⟩
  · exact r4 c hre
  rcases replaceAll_mem h with hre | ⟨h, hγ⟩
  · exact r3 c hre
  rcases replaceAll_mem h with hre | ⟨h, hα⟩
  · exact r2 c hre
  rcases replaceAll_mem h with hre | ⟨h, hβ⟩
  · exact r1 c hre
  obtain ⟨hl, hw⟩ := hm c h
  refine ⟨hl, hw, ?_⟩
  simp only [List.mem_cons, List.not_mem_nil, or_false]
  push_neg
  exact ⟨hβ, hα, hγ, hδ, hε⟩

lemma collapseWs_mem {c : Char} :
    ∀ {m : List Char}, c ∈ collapseWs m → c = ' ' ∨ c ∈ m := by
  intro m
  induction m using collapseWs.induct with
  | case1 => intro h; simp [collapseWs] at h
  | case2 d hd =>
    intro h
    rw [collapseWs, if_pos hd] at h
    simp only [List.mem_singleton] at h
    exact Or.inl h
  | case3 d hd =>
    intro h
    rw [collapseWs, if_neg hd] at h
    exact Or.inr h
  | case4 c1 c2 rest hsp ih =>
    intro h
    rw [collapseWs, if_pos hsp] at h
    rcases ih h with h | h
    · exact Or.inl h
    · exact Or.inr (List.mem_cons_of_mem c1 h)
  | case5 c1 c2 rest hsp ih =>
    intro h
    rw [collapseWs, if_neg hsp] at h
    rcases List.mem_cons.mp h with h | h
    · by_cases h1 : isSpacePy c1 = true
      · rw [if_pos h1] at h
        exact Or.inl h
      · rw [if_neg h1] at h
        exact Or.inr (by rw [h]; exact List.mem_cons_self c1 (c2 :: rest))
    · rcases ih h with h | h
      · exact Or.inl h
      · exact Or.inr (List.mem_cons_of_mem c1 h)

lemma pyStrip_mem {m : List Char} {c : Char} (h : c ∈ pyStrip m) : c ∈ m := by
  unfold pyStrip at h
  rw [List.mem_reverse] at h
  have h2 := (List.dropWhile_sublist isSpacePy).mem h
  rw [List.mem_reverse] at h2
  exact (List.dropWhile_sublist isSpacePy).mem h2

lemma wsChunks_ne_nil (m : List Char) : wsChunks m ≠ [] := by
  induction m with
  | nil => simp [wsChunks]
  | cons c rest ih =>
    rw [wsChunks]
    cases hr : wsChunks rest with
    | nil => exact absurd hr ih
    | cons g gs => cases hs : isSpacePy c <;> simp

lemma wsChunks_mem {m : List Char} {t : List Char} (ht : t ∈ wsChunks m) :
    ∀ c ∈ t, c ∈ m ∧ isSpacePy c = false := by
  induction m generalizing t with
  | nil =>
    simp only [wsChunks, List.mem_singleton] at ht
    subst ht
    intro c hc
    simp at hc
  | cons d rest ih =>
    rw [wsChunks] at ht
    cases hr : wsChunks rest with
    | nil => exact absurd hr (wsChunks_ne_nil rest)
    | cons g gs =>
      rw [hr] at ht
      cases hs : isSpacePy d with
      | true =>
        simp only [hs] at ht
        rcases List.mem_cons.mp ht with ht | ht
        · subst ht
          intro c hc
          simp at hc
        · intro c hc
          have := ih (hr ▸ ht) c hc
          exact ⟨List.mem_cons_of_mem d this.1, this.2⟩
      | false =>
        simp only [hs] at ht
        rcases List.mem_cons.mp ht with ht | ht
        · subst ht
          intro c hc
          rcases List.mem_cons.mp hc with hc | hc
          · rw [hc]
            exact ⟨List.mem_cons_self d rest, hs⟩
          · have := ih (hr ▸ List.mem_cons_self g gs) c hc
            exact ⟨List.mem_cons_of_mem d this.1, this.2⟩
        · intro c hc
          have := ih (hr ▸ List.mem_cons_of_mem g ht) c hc
          exact ⟨List.mem_cons_of_mem d this.1, this.2⟩

lemma pySplitWs_mem {m t : List Char} (ht : t ∈ pySplitWs m) :
    t ≠ [] ∧ ∀ c ∈ t, c ∈ m ∧ isSpacePy c = false := by
  unfold pySplitWs at ht
  have h1 := List.mem_filter.mp ht
  refine ⟨by simpa using h1.2, wsChunks_mem h1.1⟩

lemma normTokens_good {l : List Char} {t : List Char} (ht : t ∈ normTokens l) :
    t ≠ [] ∧ (stop_words.contains t) = false ∧
      ∀ c ∈ t, pyLower c = c ∧ isWordChar c = true ∧ isSpacePy c = false ∧
        c ∉ (['β','α','γ','δ','ε'] : List Char) := by
  unfold normTokens at ht
  have h1 := List.mem_filter.mp ht
  have h2 := pySplitWs_mem h1.1
  refine ⟨h2.1, by simpa using h1.2, ?_⟩
  intro c hc
  obtain ⟨hmem, hnsp⟩ := h2.2 c hc
  have hmem2 := pyStrip_mem hmem
  rcases collapseWs_mem hmem2 with he | hmem3
  · rw [he] at hnsp
    simp [isSpacePy] at hnsp
  · have hgood := greekSub_good hmem3 ?_
    · obtain ⟨hl, hw, h5⟩ := hgood
      refine ⟨hl, ?_, hnsp, h5⟩
      rcases Bool.or_eq_true_iff.mp hw with hw | hw
      · exact hw
      · rw [hw] at hnsp
        exact absurd hnsp (by simp)
    · intro d hd
      obtain ⟨hw, hd2⟩ := spaceify_mem hd
      rcases hd2 with he | hd3
      · subst he
        exact ⟨by decide, hw⟩
      · obtain ⟨e, he2, he3⟩ := List.mem_map.mp hd3
        subst he3
        exact ⟨pyLower_idem e, hw⟩

lemma map_pyLower_id {m : List Char} (h : ∀ c ∈ m, pyLower c = c) :
    m.map pyLower = m := by
  induction m with
  | nil => rfl
  | cons c rest ih =>
    simp only [List.map_cons]
    rw [h c (List.mem_cons_self c rest), ih (fun d hd => h d (List.mem_cons_of_mem c hd))]

lemma spaceify_id {m : List Char} (h : ∀ c ∈ m, (isWordChar c || isSpacePy c) = true) :
    spaceify m = m := by
  induction m with
  | nil => rfl
  | cons c rest ih =>
    simp only [spaceify, List.map_cons]
    rw [if_pos (h c (List.mem_cons_self c rest))]
    have := ih (fun d hd => h d (List.mem_cons_of_mem c hd))
    simp only [spaceify] at this
    rw [this]

lemma replaceAll_id {t : Char} {r m : List Char} (h : ∀ c ∈ m, c ≠ t) :
    replaceAll t r m = m := by
  induction m with
  | nil => rfl
  | cons c rest ih =>
    simp only [replaceAll, List.flatMap_cons]
    rw [if_neg (h c (List.mem_cons_self c rest))]
    have := ih (fun d hd => h d (List.mem_cons_of_mem c hd))
    simp only [replaceAll] at this
    rw [List.singleton_append, this]

lemma greekSub_id {m : List Char} (h : ∀ c ∈ m, c ∉ (['β','α','γ','δ','ε'] : List Char)) :
    greekSub m = m := by
  have hne : ∀ x ∈ (['β','α','γ','δ','ε'] : List Char), ∀ c ∈ m, c ≠ x := by
    intro x hx c hc he
    exact h c hc (he ▸ hx)
  unfold greekSub
  rw [replaceAll_id (hne 'β' (by decide)), replaceAll_id (hne 'α' (by decide)),
    replaceAll_id (hne 'γ' (by decide)), replaceAll_id (hne 'δ' (by decide)),
    replaceAll_id (hne 'ε' (by decide))]

lemma inter_single (t : List Char) : List.intercalate [' '] [t] = t := by
  simp [List.intercalate, List.intersperse]

lemma inter_cons₂ (t₁ t₂ : List Char) (ts : List (List Char)) :
    List.intercalate [' '] (t₁ :: t₂ :: ts) =
      t₁ ++ ' ' :: List.intercalate [' '] (t₂ :: ts) := by
  simp [List.intercalate, List.intersperse]

lemma inter_mem {T : List (List Char)} {c : Char}
    (h : c ∈ List.intercalate [' '] T) : c = ' ' ∨ ∃ t ∈ T, c ∈ t := by
  induction T with
  | nil => simp [List.intercalate] at h
  | cons t ts ih =>
    cases ts with
    | nil =>
      rw [inter_single] at h
      exact Or.inr ⟨t, List.mem_singleton_self t, h⟩
    | cons t₂ ts' =>
      rw [inter_cons₂] at h
      rcases List.mem_append.mp h with h | h
      · exact Or.inr ⟨t, List.mem_cons_self _ _, h⟩
      · rcases List.mem_cons.mp h with h | h
        · exact Or.inl h
        · rcases ih h with h | ⟨u, hu, hc⟩
          · exact Or.inl h
          · exact Or.inr ⟨u, List.mem_cons_of_mem t hu, hc⟩

lemma collapse_cons_nospace {c : Char} (hc : isSpacePy c = false) (rest : List Char) :
    collapseWs (c :: rest) = c :: collapseWs rest := by
  cases rest with
  | nil => simp [collapseWs, hc]
  | cons d l =>
    rw [collapseWs, if_neg (by simp [hc])]
    simp [hc]

lemma collapse_append_nospace {m : List Char} (h : ∀ c ∈ m, isSpacePy c = false)
    (rest : List Char) : collapseWs (m ++ rest) = m ++ collapseWs rest := by
  induction m with
  | nil => rfl
  | cons c m' ih =>
    rw [List.cons_append, collapse_cons_nospace (h c (List.mem_cons_self c m')),
      ih (fun d hd => h d (List.mem_cons_of_mem c hd))]
    rfl

lemma collapse_sep {rest : List Char}
    (h : rest = [] ∨ ∃ d l, rest = d :: l ∧ isSpacePy d = false) :
    collapseWs (' ' :: rest) = ' ' :: collapseWs rest := by
  rcases h with h | ⟨d, l, h, hd⟩
  · subst h; rfl
  · subst h
    rw [collapseWs, if_neg (by simp [hd])]
    simp

lemma collapse_intercalate {T : List (List Char)}
    (h : ∀ t ∈ T, t ≠ [] ∧ ∀ c ∈ t, isSpacePy c = false) :
    collapseWs (List.intercalate [' '] T) = List.intercalate [' '] T := by
  induction T with
  | nil => rfl
  | cons t ts ih =>
    cases ts with
    | nil =>
      rw [inter_single]
      have hns := (h t (List.mem_singleton_self t)).2
      have hap := collapse_append_nospace hns []
      rw [List.append_nil] at hap
      rw [hap]
      simp [collapseWs]
    | cons t₂ ts' =>
      rw [inter_cons₂]
      have hns := (h t (List.mem_cons_self _ _)).2
      rw [collapse_append_nospace hns]
      have ht₂ := h t₂ (List.mem_cons_of_mem t (List.mem_cons_self _ _))
      obtain ⟨d, l, ht2d⟩ := List.exists_cons_of_ne_nil ht₂.1
      subst ht2d
      have hsep : collapseWs (' ' :: List.intercalate [' '] ((d :: l) :: ts')) =
          ' ' :: collapseWs (List.intercalate [' '] ((d :: l) :: ts')) := by
        apply collapse_sep
        right
        cases ts' with
        | nil =>
          exact ⟨d, l, by rw [inter_single], ht₂.2 d (List.mem_cons_self d l)⟩
        | cons t₃ ts'' =>
          exact ⟨d, l ++ ' ' :: List.intercalate [' '] (t₃ :: ts''),
            by rw [inter_cons₂]; rfl, ht₂.2 d (List.mem_cons_self d l)⟩
      rw [hsep, ih (fun u hu => h u (List.mem_cons_of_mem t hu))]

lemma strip_id {m : List Char}
    (hh : ∀ c, m.head? = some c → isSpacePy c = false)
    (hl : ∀ c, m.getLast? = some c → isSpacePy c = false) :
    pyStrip m = m := by
  unfold pyStrip
  have h1 : m.dropWhile isSpacePy = m := by
    cases m with
    | nil => rfl
    | cons c rest =>
      rw [List.dropWhile_cons, if_neg (by simp [hh c rfl])]
  rw [h1]
  have h2 : m.reverse.dropWhile isSpacePy = m.reverse := by
    cases hr : m.reverse with
    | nil => rfl
    | cons c rest =>
      have hlast : m.getLast? = some c := by
        rw [← List.head?_reverse, hr]
        rfl
      rw [List.dropWhile_cons, if_neg (by simp [hl c hlast])]
  rw [h2, List.reverse_reverse]

lemma inter_ne_nil {t : List Char} (ht : t ≠ []) (ts : List (List Char)) :
    List.intercalate [' '] (t :: ts) ≠ [] := by
  cases ts with
  | nil => rw [inter_single]; exact ht
  | cons t₂ ts' =>
    rw [inter_cons₂]
    intro he
    exact ht (List.append_eq_nil.mp he).1

lemma inter_head {T : List (List Char)}
    (h : ∀ t ∈ T, t ≠ [] ∧ ∀ c ∈ t, isSpacePy c = false) :
    ∀ c, (List.intercalate [' '] T).head? = some c → isSpacePy c = false := by
  intro c hc
  cases T with
  | nil => simp [List.intercalate] at hc
  | cons t ts =>
    have ht := h t (List.mem_cons_self _ _)
    obtain ⟨d, l, hd⟩ := List.exists_cons_of_ne_nil ht.1
    subst hd
    have hdc : c = d := by
      cases ts with
      | nil =>
        rw [inter_single] at hc
        exact (Option.some.injEq _ _ ▸ hc.symm).symm ▸ rfl
      | cons t₂ ts' =>
        rw [inter_cons₂] at hc
        simp at hc
        exact hc.symm
    subst hdc
    exact ht.2 c (List.mem_cons_self _ _)

lemma inter_getLast {T : List (List Char)}
    (h : ∀ t ∈ T, t ≠ [] ∧ ∀ c ∈ t, isSpacePy c = false) :
    ∀ c, (List.intercalate [' '] T).getLast? = some c → isSpacePy c = false := by
  induction T with
  | nil => intro c hc; simp [List.intercalate] at hc
  | cons t ts ih =>
    intro c hc
    have ht := h t (List.mem_cons_self _ _)
    cases ts with
    | nil =>
      rw [inter_single] at hc
      exact ht.2 c (List.mem_of_mem_getLast? (hc ▸ rfl))
    | cons t₂ ts' =>
      rw [inter_cons₂] at hc
      have ht₂ := h t₂ (List.mem_cons_of_mem t (List.mem_cons_self _ _))
      have hX : List.intercalate [' '] (t₂ :: ts') ≠ [] := inter_ne_nil ht₂.1 ts'
      rw [List.getLast?_append_of_ne_nil t (by simp)] at hc
      have : (' ' :: List.intercalate [' '] (t₂ :: ts')).getLast? =
          (List.intercalate [' '] (t₂ :: ts')).getLast? := by
        have := List.getLast?_append_of_ne_nil [' '] hX
        simpa using this
      rw [this] at hc
      exact ih (fun u hu => h u (List.mem_cons_of_mem t hu)) c hc

lemma wsChunks_space (rest : List Char) :
    wsChunks (' ' :: rest) = [] :: wsChunks rest := by
  rw [wsChunks]
  cases hr : wsChunks rest with
  | nil => exact absurd hr (wsChunks_ne_nil rest)
  | cons g gs => rfl

lemma wsChunks_append {m rest : List Char} (h : ∀ c ∈ m, isSpacePy c = false)
    {g : List Char} {gs : List (List Char)} (hr : wsChunks rest = g :: gs) :
    wsChunks (m ++ rest) = (m ++ g) :: gs := by
  induction m with
  | nil => simpa using hr
  | cons c m' ih =>
    rw [List.cons_append, wsChunks,
      ih (fun d hd => h d (List.mem_cons_of_mem c hd)),
      h c (List.mem_cons_self c m')]
    rfl

lemma pySplitWs_intercalate {T : List (List Char)}
    (h : ∀ t ∈ T, t ≠ [] ∧ ∀ c ∈ t, isSpacePy c = false) :
    pySplitWs (List.intercalate [' '] T) = T := by
  induction T with
  | nil => rfl
  | cons t ts ih =>
    have ht := h t (List.mem_cons_self _ _)
    cases ts with
    | nil =>
      rw [inter_single]
      unfold pySplitWs
      have hw : wsChunks t = [t] := by
        have hwnil : wsChunks ([] : List Char) = [] :: [] := rfl
        have := wsChunks_append ht.2 hwnil
        simpa using this
      rw [hw]
      simp [ht.1]
    | cons t₂ ts' =>
      rw [inter_cons₂]
      have hih := ih (fun u hu => h u (List.mem_cons_of_mem t hu))
      unfold pySplitWs at hih ⊢
      rw [wsChunks_append ht.2 (wsChunks_space (List.intercalate [' '] (t₂ :: ts'))),
        List.append_nil,
        List.filter_cons_of_pos (by simp [ht.1]),
        hih]

lemma normTokens_inter (l : List Char) :
    normTokens (List.intercalate [' '] (normTokens l)) = normTokens l := by
  have htoks : ∀ t ∈ normTokens l, t ≠ [] ∧ ∀ c ∈ t, isSpacePy c = false := by
    intro t ht
    obtain ⟨h1, _, hg⟩ := normTokens_good ht
    exact ⟨h1, fun c hc => (hg c hc).2.2.1⟩
  have hstop : ∀ t ∈ normTokens l, (stop_words.contains t) = false :=
    fun t ht => (normTokens_good ht).2.1
  have hmem : ∀ c ∈ List.intercalate [' '] (normTokens l),
      pyLower c = c ∧ (isWordChar c || isSpacePy c) = true ∧
        c ∉ (['β','α','γ','δ','ε'] : List Char) := by
    intro c hc
    rcases inter_mem hc with he | ⟨t, ht, hct⟩
    · subst he
      exact ⟨by decide, by decide, by decide⟩
    · obtain ⟨_, _, hg⟩ := normTokens_good ht
      obtain ⟨h1, h2, _, h4⟩ := hg c hct
      exact ⟨h1, by rw [h2, Bool.true_or], h4⟩
  conv_lhs => rw [normTokens]
  rw [map_pyLower_id (fun c hc => (hmem c hc).1),
    spaceify_id (fun c hc => (hmem c hc).2.1),
    greekSub_id (fun c hc => (hmem c hc).2.2),
    collapse_intercalate htoks,
    strip_id (inter_head htoks) (inter_getLast htoks),
    pySplitWs_intercalate htoks]
  apply List.filter_eq_self.mpr
  intro t ht
  simpa using hstop t ht

lemma normalizeL_idem (l : List Char) : normalizeL (normalizeL l) = normalizeL l := by
  unfold normalizeL
  exact congrArg (List.intercalate [' ']) (normTokens_inter l)

/-- C8: title normalization is idempotent — normalizing an
already-normalized title returns it unchanged. -/
theorem C8_normalize_idempotent (x : String) :
    normalize_title (normalize_title x) = normalize_title x :=
  congrArg String.mk (normalizeL_idem x.data)

/-! ### Kernel-evaluated counterexamples and witnesses

The arithmetic of `Rat` is `@[irreducible]` in the ambient library;
within this section it is made reducible again so that `decide` can
evaluate the embedded functions on concrete titles. -/

section KernelEval

attribute [local semireducible] Rat.mul Rat.inv Rat.add Rat.sub Rat.ofScientific
attribute [local semireducible] pyMatches normalizeL

/-- C1's premise is false of the code: for a source URL that matches the
arXiv identifier pattern (`extract_arxiv_id` succeeds), the resolution
step still issues title-search strategy queries instead of fetching by
identifier. -/
theorem C1_counterexample :
    extract_arxiv_id "https://arxiv.org/abs/2310.17042" = some "2310.17042" ∧
    (resolvePaper (fun _ => []) "ADOPT" "https://arxiv.org/abs/2310.17042" (1/2)).issued ≠ [] := by
  constructor
  · rfl
  · decide

/-- Witness for C1's amended theorem: an arXiv-identifier URL and a
plain URL resolve identically. -/
theorem C1_url_only_via_venue_witness :
    resolvePaper (fun _ => []) "ADOPT" "https://arxiv.org/abs/2310.17042" (1/2) =
      resolvePaper (fun _ => []) "ADOPT" "https://example.org/paper" (1/2) :=
  C1_url_only_via_venue _ _ _ _ _ (by decide)

/-- Witness for C5 at the spec's own example pair (the candidate's
normalization contains the blacklisted phrase "continuity equation"). -/
theorem C5_blacklist_precedence_witness :
    verify_paper_match ("Adam Optimizer Convergence")
        ("Existence of Weak Solutions to the Continuity Equation") =
      (false, 0, Reason.BlacklistedPattern) :=
  C5_blacklist_precedence _ _ ⟨"continuity equation", by decide, by decide, by decide⟩

/-- Witness for C7: the spec's example shape — requested "Adam"
(normalized length 4) against a 40-character unrelated candidate
containing "adam". -/
theorem C7_length_ratio_rejection_witness :
    verify_paper_match ("Adam") ("adamxxxxxxxxxxxxxxxxxxxxxxxxxxxxxxxxxxxx") =
      (false, title_similarity ("Adam") ("adamxxxxxxxxxxxxxxxxxxxxxxxxxxxxxxxxxxxx"),
        Reason.CandidateTooLong) :=
  C7_length_ratio_rejection _ _ (by decide) (by decide) (by decide)

/-- C6 fails on the code at a concrete title: the fourth strategy's
query wraps the three longest tokens in double quotes (a quoted phrase
search), not the unquoted free-text query the claim states. -/
theorem C6_counterexample :
    (searchStrategies ("stochastic gradient descent") false).get? 3 =
      some ⟨"\"stochastic gradient descent\"", 10⟩ ∧
    ("\"stochastic gradient descent\"" : String) ≠ "stochastic gradient descent" := by
  constructor
  · rfl
  · decide

/-- C4 fails on the code: the composite score is not symmetric, because
difflib's sequence ratio depends on the argument order (its greedy
first-longest-block tie-breaking is orientation-dependent).  At this
pair the two directions score 4/13 and 2/13. -/
theorem C4_counterexample :
    title_similarity ("abxcd") ("cdyabzcd") ≠ title_similarity ("cdyabzcd") ("abxcd") := by
  decide

/-- Witness for C4's amended theorem at a pair whose sequence ratio is
symmetric. -/
theorem C4_symmetry_given_ratio_witness :
    title_similarity ("adam optimizer") ("optimizer adam") =
      title_similarity ("optimizer adam") ("adam optimizer") :=
  C4_symmetry_given_ratio _ _ (by decide)

/-- Witness for C2: with an oracle whose first strategy already returns
an accepted candidate, only one query is issued. -/
theorem C2_strategy_short_circuit_witness :
    ∃ n, n ≤ 0 + 1 ∧
      (search_arxiv_by_title (fun _ => ["adam"]) ("adam") (1/2) false).issued =
        (searchStrategies ("adam") false).take n :=
  C2_strategy_short_circuit _ _ _ _ 0 (by decide) ⟨"adam", by decide, by decide⟩

/-- Witness for C3: a run whose only candidate is rejected by every
strategy, so the unverified fallback decides. -/
theorem C3_unverified_fallback_witness :
    ∃ b, argmaxFirst (title_similarity ("adam"))
        (searchLoop (fun _ => ["zzz"]) ("adam") (searchStrategies ("adam") false) [] []).2.2 =
          some b ∧
      (search_arxiv_by_title (fun _ => ["zzz"]) ("adam") (1/2) false).returned =
        (if title_similarity ("adam") b ≥
              (if false then max (2/5) ((1/2 : ℚ) - 1/5) else (1/2 : ℚ)) ∧
            (verify_paper_match ("adam") b).1 = true
         then [b] else []) :=
  C3_unverified_fallback _ _ _ _ (by decide) (by decide)

/-- Witness for C9: a stop-word-only requested title against an
ordinary candidate. -/
theorem C9_empty_request_witness :
    (verify_paper_match ("The of") ("Attention Is All You Need")).1 = true ∧
    (normalize_title ("Attention Is All You Need") ≠ "" →
      verify_paper_match ("The of") ("Attention Is All You Need") =
        (true, 3/10, Reason.TitleContainment)) :=
  C9_empty_request _ _ (by decide) (by decide)

end KernelEval

end ArxivFetch
